import Mathlib

/-!
Verification of the AppleScript interop layer of a macOS automation server.

The interop layer (module `utils/applescript`) consists of a scalar parser
`parse_value`, container parsers `parse_applescript_list` and
`parse_applescript_record`, a formatter `format_applescript_value` with its
string escaper `escape_string`, a subprocess executor `run_applescript_async`,
and a timing decorator `log_execution_time`.  The module itself is not part of
the source tree; it is embedded here from the design document, and its
behaviour is cross-checked against the repository's test suite
(`tests/test_applescript.py`), which pins concrete input/output pairs.

The tool layer (`apple_mcp.py`) and the domain modules (`utils/message.py`,
`utils/mail.py`) are present in the source tree; their method tables and call
sites are embedded directly from that code.
-/

/-! ## Characters and decimal digits -/

/-- The double-quote character. -/
def dquote : Char := Char.ofNat 34

/-- The single-quote character. -/
def squote : Char := Char.ofNat 39

/-- The backslash character. -/
def bslash : Char := Char.ofNat 92

/-- Decimal digit character for a value below ten. -/
def digitChar (n : Nat) : Char := Char.ofNat (48 + n)

/-- Fuel-bounded big-endian decimal digits of a natural number. -/
def natDecimalAux (fuel : Nat) (n : Nat) : List Char :=
  match fuel with
  | 0 => []
  | fuel + 1 =>
    if n < 10 then [digitChar n]
    else natDecimalAux fuel (n / 10) ++ [digitChar (n % 10)]

/-- Big-endian decimal digits of a natural number. -/
def natDecimal (n : Nat) : List Char := natDecimalAux (n + 1) n

/-- Value of a big-endian digit string, with an accumulator. -/
def digitsValAux (acc : Nat) : List Char → Nat
  | [] => acc
  | c :: cs => digitsValAux (acc * 10 + (c.toNat - 48)) cs

/-- Value of a big-endian digit string. -/
def digitsVal (cs : List Char) : Nat := digitsValAux 0 cs

/-- Decimal rendering of an integer, matching Python `str` on `int`. -/
def intDecimal (i : Int) : List Char :=
  if i < 0 then '-' :: natDecimal i.natAbs else natDecimal i.natAbs

/-- Decimal rendering of the float denoted by `num / 10 ^ scale`, matching
Python `str` on a finite float: sign, integer part, a dot, then exactly
`scale` fractional digits (at least one digit, zero-padded on the left). -/
def floatDecimal (num : Int) (scale : Nat) : List Char :=
  let a := num.natAbs
  let ip := natDecimal (a / 10 ^ scale)
  let fd := natDecimal (a % 10 ^ scale)
  let frac := List.replicate (scale - fd.length) '0' ++ fd
  (if num < 0 then ['-'] else []) ++ ip ++ '.' :: frac

/-! ## The value data model

Modelled from the spec: `ParsedValue` is the native value type produced by the
parser.  The design document describes a recursive sum type; the parser under
verification only ever produces scalar leaves (nested containers are kept as
raw text by the stated nested-record policy), so the embedding separates the
scalar leaves (`ParsedValue`) from the one-level composites accepted by the
formatter (`AppleValue`).  A float is embedded as an exact decimal
`num / 10 ^ scale`; every finite Python float has such a form and Python's
`str` always prints at least one fractional digit, so parser-produced floats
have `1 ≤ scale`. -/
inductive ParsedValue : Type where
  | null : ParsedValue
  | bool : Bool → ParsedValue
  | int : Int → ParsedValue
  | float : (num : Int) → (scale : Nat) → ParsedValue
  | str : String → ParsedValue
deriving DecidableEq, Repr

/-- Modelled from the spec: the composite values accepted by the formatter,
one container level of scalar leaves (the shallow shape exercised by the
round-trip contract and by the repository's tests). -/
inductive AppleValue : Type where
  | scalar : ParsedValue → AppleValue
  | list : List ParsedValue → AppleValue
  | record : List (String × ParsedValue) → AppleValue
deriving DecidableEq, Repr

/-! ## The string escaper and the formatter -/

/-- Replace every occurrence of the character `t` by the segment `r`. -/
def charReplace (t : Char) (r : List Char) : List Char → List Char
  | [] => []
  | c :: cs => (if c = t then r else [c]) ++ charReplace t r cs

/-- Modelled from the spec: `escape_string` escapes embedded backslashes and
double quotes with a preceding backslash, applied as sequential whole-string
replacements (backslashes first).  The repository test `test_escape_string`
additionally pins that single quotes receive the same escape, so a third
replacement pass is included. -/
def escapeChars (cs : List Char) : List Char :=
  charReplace squote [bslash, squote]
    (charReplace dquote [bslash, dquote]
      (charReplace bslash [bslash, bslash] cs))

/-- Modelled from the spec: the string-escaping utility used by the formatter. -/
def escape_string (s : String) : String := String.mk (escapeChars s.toList)

/-- Comma-and-space interleaving of rendered elements. -/
def joinComma : List (List Char) → List Char
  | [] => []
  | [p] => p
  | p :: ps => p ++ ',' :: ' ' :: joinComma ps

/-- Modelled from the spec: the literal rendering of one scalar value.
Null maps to the reserved token, booleans to lowercase tokens, numbers to
their decimal text, and strings are escaped and wrapped in double quotes. -/
def scalarChars : ParsedValue → List Char
  | .null => "missing value".toList
  | .bool b => if b then "true".toList else "false".toList
  | .int n => intDecimal n
  | .float num scale => floatDecimal num scale
  | .str s => dquote :: (escapeChars s.toList ++ [dquote])

/-- Modelled from the spec: `format_applescript_value` serializes a native
value into AppleScript literal text.  Sequences become brace-wrapped
comma-separated elements; mappings become brace-wrapped `key:value` pairs with
the bare unquoted key (the test `test_format_applescript_value` pins the
plain-colon field separator). -/
def format_applescript_value (v : AppleValue) : String :=
  match v with
  | .scalar x => String.mk (scalarChars x)
  | .list xs => String.mk ('{' :: (joinComma (xs.map scalarChars) ++ ['}']))
  | .record kvs =>
      String.mk ('{' :: (joinComma
        (kvs.map fun kv => kv.1.toList ++ ':' :: scalarChars kv.2) ++ ['}']))

/-! ## The scalar parser -/

/-- Integer-literal recognizer and value: an optional sign followed by one or
more decimal digits. -/
def digitsOnly (cs : List Char) : Bool := !cs.isEmpty && cs.all Char.isDigit

/-- Parse an integer literal, if the text is one. -/
def intLitVal? (cs : List Char) : Option Int :=
  match cs with
  | [] => none
  | c :: rest =>
    if c = '-' then
      if digitsOnly rest then some (-(digitsVal rest : Int)) else none
    else if c = '+' then
      if digitsOnly rest then some ((digitsVal rest : Int)) else none
    else if digitsOnly (c :: rest) then some ((digitsVal (c :: rest) : Int))
    else none

/-- Unsigned float-literal recognizer: decimal digits with an optional dot,
returning the numerator and the number of fractional digits.  Plain digit
strings are accepted (Python `float` accepts them); exponents and the special
tokens are outside the modelled grammar. -/
def floatCore? (cs : List Char) : Option (Nat × Nat) :=
  let ip := cs.takeWhile Char.isDigit
  let rest := cs.dropWhile Char.isDigit
  match rest with
  | [] => if ip.isEmpty then none else some (digitsVal ip, 0)
  | c :: frac =>
    if c = '.' then
      if (!ip.isEmpty || !frac.isEmpty) && frac.all Char.isDigit then
        some (digitsVal ip * 10 ^ frac.length + digitsVal frac, frac.length)
      else none
    else none

/-- Parse a float literal, if the text is one. -/
def floatLitVal? (cs : List Char) : Option (Int × Nat) :=
  match cs with
  | [] => none
  | c :: rest =>
    if c = '-' then (floatCore? rest).map (fun p => (-(p.1 : Int), p.2))
    else if c = '+' then (floatCore? (c :: rest).tail).map (fun p => ((p.1 : Int), p.2))
    else (floatCore? (c :: rest)).map (fun p => ((p.1 : Int), p.2))

/-- Quote-stripping fallback of the scalar parser: text wrapped in double
quotes loses the surrounding quotes (no further unescaping); anything else is
returned unchanged as a string. -/
def stripQuotedChars (cs : List Char) : ParsedValue :=
  match cs with
  | [] => .str ""
  | c :: rest =>
    if c = dquote ∧ rest ≠ [] ∧ rest.getLast? = some dquote then
      .str (String.mk rest.dropLast)
    else .str (String.mk (c :: rest))

/-- Modelled from the spec: the character-level scalar parser, trying in
order: reserved missing-value token, boolean tokens, integer literal, float
literal, quoted string, and finally the text itself unchanged. -/
def parseValueChars (cs : List Char) : ParsedValue :=
  if cs = "missing value".toList then .null
  else if cs = "true".toList then .bool true
  else if cs = "false".toList then .bool false
  else
    match intLitVal? cs with
    | some n => .int n
    | none =>
      match floatLitVal? cs with
      | some p => .float p.1 p.2
      | none => stripQuotedChars cs

/-- Modelled from the spec: `parse_value` maps raw scalar text to a
`ParsedValue`. -/
def parse_value (s : String) : ParsedValue := parseValueChars s.toList

/-! ## The list and record parsers -/

/-- Whitespace trimming at both ends of a character list. -/
def trimChars (cs : List Char) : List Char :=
  ((cs.dropWhile Char.isWhitespace).reverse.dropWhile Char.isWhitespace).reverse

/-- Strip one matching pair of surrounding double quotes, if present. -/
def stripQuotes (cs : List Char) : List Char :=
  match cs with
  | [] => []
  | c :: rest =>
    if c = dquote ∧ rest ≠ [] ∧ rest.getLast? = some dquote then rest.dropLast
    else c :: rest

/-- Strip surrounding whitespace and then one layer of enclosing braces, if
present. -/
def stripBracesChars (cs : List Char) : List Char :=
  if (trimChars cs).head? = some '{' ∧ (trimChars cs).getLast? = some '}' ∧
      2 ≤ (trimChars cs).length then
    ((trimChars cs).drop 1).dropLast
  else trimChars cs

/-- Left-to-right scan splitting at commas that occur at brace-nesting depth
zero and outside double quotes; `depth`, `inQ` and the reversed current
segment `cur` are the scan state. -/
def splitTopLevel : List Char → Nat → Bool → List Char → List (List Char)
  | [], _, _, cur => [cur.reverse]
  | c :: rest, depth, inQ, cur =>
    if inQ then
      if c = dquote then splitTopLevel rest depth false (c :: cur)
      else splitTopLevel rest depth true (c :: cur)
    else if c = dquote then splitTopLevel rest depth true (c :: cur)
    else if c = '{' then splitTopLevel rest (depth + 1) false (c :: cur)
    else if c = '}' then splitTopLevel rest (depth - 1) false (c :: cur)
    else if c = ',' ∧ depth = 0 then cur.reverse :: splitTopLevel rest 0 false []
    else splitTopLevel rest depth false (c :: cur)

/-- Independent scanner counting the split points of `splitTopLevel`: commas
at depth zero outside double quotes. -/
def countTopLevelCommas : List Char → Nat → Bool → Nat
  | [], _, _ => 0
  | c :: rest, depth, inQ =>
    if inQ then
      if c = dquote then countTopLevelCommas rest depth false
      else countTopLevelCommas rest depth true
    else if c = dquote then countTopLevelCommas rest depth true
    else if c = '{' then countTopLevelCommas rest (depth + 1) false
    else if c = '}' then countTopLevelCommas rest (depth - 1) false
    else if c = ',' ∧ depth = 0 then countTopLevelCommas rest 0 false + 1
    else countTopLevelCommas rest depth false

/-- Modelled from the spec: `parse_applescript_list` strips one layer of
enclosing braces, splits the interior at top-level commas, and returns each
segment trimmed of whitespace; the tests `test_parse_applescript_list` pin
that one pair of surrounding double quotes is also removed from each element. -/
def parse_applescript_list (s : String) : List String :=
  let inner := stripBracesChars s.toList
  if trimChars inner = [] then []
  else ((splitTopLevel inner 0 false []).map fun e =>
    String.mk (stripQuotes (trimChars e)))

/-- Does the two-character delimiter `:=` occur anywhere in the text? -/
def containsAssign : List Char → Bool
  | [] => false
  | ':' :: '=' :: _ => true
  | _ :: rest => containsAssign rest

/-- Scan for the first `:=` delimiter at brace-nesting depth zero and outside
double quotes, returning the text before and after it. -/
def splitAssign : List Char → Nat → Bool → List Char → Option (List Char × List Char)
  | [], _, _, _ => none
  | c :: rest, depth, inQ, acc =>
    if inQ then
      if c = dquote then splitAssign rest depth false (c :: acc)
      else splitAssign rest depth true (c :: acc)
    else if c = dquote then splitAssign rest depth true (c :: acc)
    else if c = '{' then splitAssign rest (depth + 1) false (c :: acc)
    else if c = '}' then splitAssign rest (depth - 1) false (c :: acc)
    else if c = ':' ∧ depth = 0 ∧ rest.head? = some '=' then
      some (acc.reverse, rest.tail)
    else splitAssign rest depth false (c :: acc)

/-- Modelled from the spec: one record segment is split at its first
top-level `key:=value` delimiter; a segment without the delimiter is skipped.
A value that is itself a nested record (starts with an opening brace and
contains an inner `:=`) is kept as its raw unparsed text; any other value is
parsed as a scalar. -/
def parseRecordSegment (seg : List Char) : Option (String × ParsedValue) :=
  (splitAssign seg 0 false []).map fun kv =>
    if (trimChars kv.2).head? = some '{' ∧ containsAssign (trimChars kv.2) then
      (String.mk (trimChars kv.1), .str (String.mk (trimChars kv.2)))
    else
      (String.mk (trimChars kv.1), parseValueChars (trimChars kv.2))

/-- Modelled from the spec: `parse_applescript_record` strips enclosing
braces, splits at top-level commas, and decodes each segment via
`parseRecordSegment`, skipping malformed segments. -/
def parse_applescript_record (s : String) : List (String × ParsedValue) :=
  let inner := stripBracesChars s.toList
  if trimChars inner = [] then []
  else (splitTopLevel inner 0 false []).filterMap parseRecordSegment

/-! ## The script executor -/

/-- Modelled from the spec: the observable outcome of the external
interpreter process spawned for one call — either completion with captured
standard output, standard error and exit status, or expiry of the configured
timeout.  Real time and the operating-system process are abstracted into this
outcome type. -/
inductive ProcessOutcome : Type where
  | completed : (stdout : String) → (stderr : String) → (exitCode : Int) → ProcessOutcome
  | timedOut : ProcessOutcome
deriving DecidableEq, Repr

/-- Modelled from the spec: the error kinds raised by the executor. -/
inductive AppleScriptError : Type where
  | executionFailed : (stderr : String) → AppleScriptError
  | timeout : AppleScriptError
deriving DecidableEq, Repr

/-- Modelled from the spec: `run_applescript_async` returns the captured
standard output on exit status zero, an `executionFailed` error carrying the
captured standard error on any other exit status, and a `timeout` error on
expiry; the boolean records whether the child process was terminated by the
executor (done exactly on timeout). -/
def run_applescript_async (outcome : ProcessOutcome) :
    Except AppleScriptError String × Bool :=
  match outcome with
  | .completed out err code =>
      (if code = 0 then .ok out else .error (.executionFailed err), false)
  | .timedOut => (.error .timeout, true)

/-! ## The timing decorator -/

/-- Modelled from the spec: `log_execution_time` wraps an operation (a
function that returns a value or fails), invokes it, and emits one log line
recording the outcome; timing is abstracted.  The pair returned is the
wrapped operation's own result together with the emitted log lines. -/
def log_execution_time {α ε β : Type} (fname : String) (f : α → Except ε β) :
    α → Except ε β × List String :=
  fun a =>
    match f a with
    | .ok b => (.ok b, [fname ++ " completed"])
    | .error e => (.error e, [fname ++ " failed"])

/-! ## The tool layer and the domain-module method tables

These are embedded from the source files `apple_mcp.py`, `utils/message.py`
and `utils/mail.py`: each module's methods with their required and optional
parameter counts (excluding `self`), and Python's dynamic dispatch outcome
for a call site. -/

/-- A method of a Python class: its name, its required parameter count and
its defaulted parameter count, excluding `self`. -/
structure MethodSig : Type where
  method : String
  required : Nat
  optional : Nat
deriving DecidableEq, Repr

/-- The outcome of dispatching `obj.method(args...)` in Python: missing
attribute, arity mismatch, or a successful entry into the method body. -/
inductive CallOutcome : Type where
  | ok : CallOutcome
  | attributeError : CallOutcome
  | typeError : CallOutcome
deriving DecidableEq, Repr

/-- Dispatch a call of `m` with `nargs` arguments against a method table:
attribute lookup first, then arity check. -/
def callMethod (ms : List MethodSig) (m : String) (nargs : Nat) : CallOutcome :=
  match ms.find? (fun sig => sig.method = m) with
  | none => .attributeError
  | some sig =>
    if sig.required ≤ nargs ∧ nargs ≤ sig.required + sig.optional then .ok
    else .typeError

/-- The methods of `MessageModule` (`utils/message.py`). -/
def messageModuleMethods : List MethodSig :=
  [⟨"check_messages_access", 0, 0⟩,
   ⟨"send_message", 2, 0⟩,
   ⟨"read_messages", 1, 1⟩,
   ⟨"schedule_message", 3, 0⟩,
   ⟨"get_unread_messages", 0, 1⟩]

/-- The methods of `MailModule` (`utils/mail.py`). -/
def mailModuleMethods : List MethodSig :=
  [⟨"check_mail_access", 0, 0⟩,
   ⟨"get_unread_mails", 0, 1⟩,
   ⟨"get_unread_mails_for_account", 1, 2⟩,
   ⟨"search_mails", 1, 1⟩,
   ⟨"send_mail", 3, 2⟩,
   ⟨"get_mailboxes_for_account", 1, 0⟩,
   ⟨"get_mailboxes", 0, 0⟩,
   ⟨"get_accounts", 0, 0⟩]

/-- The `send_message` tool (`apple_mcp.py` line 109) passes the three
arguments `to`, `content`, `scheduled_time` to `MessageModule.send_message`. -/
def send_message_tool_dispatch : CallOutcome :=
  callMethod messageModuleMethods "send_message" 3

/-- The `send_email` tool (`apple_mcp.py` line 120) invokes
`mail_module.send_email` with five arguments. -/
def send_email_tool_dispatch : CallOutcome :=
  callMethod mailModuleMethods "send_email" 5

/-- The `search_emails` tool (`apple_mcp.py` line 131) invokes
`mail_module.search_emails` with two arguments. -/
def search_emails_tool_dispatch : CallOutcome :=
  callMethod mailModuleMethods "search_emails" 2

/-! ## Predicates used to state the round-trip and escaping properties -/

/-- A character that the escaper leaves unchanged: not a double quote, not a
backslash, not a single quote. -/
def cleanChar (c : Char) : Bool := c != dquote && c != bslash && c != squote

/-- A string all of whose characters the escaper leaves unchanged. -/
def cleanString (s : String) : Bool := s.toList.all cleanChar

/-- Raw text that the scalar parser returns unchanged as a string: none of
the special tokens, not an integer or float literal, not quote-initial. -/
def inertChars (cs : List Char) : Bool :=
  decide (cs ≠ "missing value".toList) && decide (cs ≠ "true".toList) &&
  decide (cs ≠ "false".toList) && (intLitVal? cs).isNone &&
  (floatLitVal? cs).isNone && decide (cs.head? ≠ some dquote)

/-- Scalars whose formatted literal parses back to the same value: every
null, boolean and integer; floats with at least one fractional digit (the
only floats the formatter model emits, since Python `str` always prints one);
strings none of whose characters get escaped. -/
def scalarOK : ParsedValue → Bool
  | .float _ scale => decide (1 ≤ scale)
  | .str s => cleanString s
  | v => decide (v = v)

/-- List elements whose formatted literal survives the list parser's
trim-and-quote-strip post-processing and re-parses to the same value: string
elements must additionally be inert, because the list parser removes the
surrounding quotes before any scalar coercion happens. -/
def listElemOK : ParsedValue → Bool
  | .str s => cleanString s && inertChars s.toList
  | v => scalarOK v

/-- The per-character escaping rule: the double quote, the backslash and the
single quote gain one preceding backslash; every other character is
unchanged.  Used to characterize `escape_string`. -/
def escapeSpec : List Char → List Char
  | [] => []
  | c :: cs =>
    (if c = dquote ∨ c = bslash ∨ c = squote then [bslash, c] else [c]) ++ escapeSpec cs

/-- Is the optional boundary character absent or non-whitespace? -/
def optNotWs (o : Option Char) : Bool :=
  match o with
  | none => true
  | some c => !c.isWhitespace

/-- A list-element piece containing no quote, no brace and no comma, with
non-whitespace first and last characters (the shape of every formatted
non-string scalar). -/
def AtomPiece (p : List Char) : Prop :=
  p ≠ [] ∧ (∀ c ∈ p, c ≠ dquote ∧ c ≠ '{' ∧ c ≠ '}' ∧ c ≠ ',') ∧
  optNotWs p.head? = true ∧ optNotWs p.getLast? = true

/-- A quote-delimited piece whose interior contains no double quote (the
shape of every formatted clean string). -/
def QuotedPiece (p : List Char) : Prop :=
  ∃ mid, p = dquote :: (mid ++ [dquote]) ∧ ∀ c ∈ mid, c ≠ dquote

/-- The shape of every formatted scalar, as seen by the top-level splitter. -/
def ScalarPiece (p : List Char) : Prop := AtomPiece p ∨ QuotedPiece p

/-! ## Decimal digit lemmas -/

theorem digitChar_toNat {n : Nat} (h : n < 10) : (digitChar n).toNat = 48 + n := by
  interval_cases n <;> decide

theorem digitChar_isDigit {n : Nat} (h : n < 10) : (digitChar n).isDigit = true := by
  interval_cases n <;> decide

theorem digitsValAux_cons (a : Nat) (c : Char) (cs : List Char) :
    digitsValAux a (c :: cs) = digitsValAux (a * 10 + (c.toNat - 48)) cs := rfl

theorem digitsValAux_nil (a : Nat) : digitsValAux a [] = a := rfl

theorem digitsValAux_append (a : Nat) (xs ys : List Char) :
    digitsValAux a (xs ++ ys) = digitsValAux (digitsValAux a xs) ys := by
  induction xs generalizing a with
  | nil => rfl
  | cons c cs ih => rw [List.cons_append, digitsValAux_cons, digitsValAux_cons, ih]

theorem natDecimalAux_ne_nil {fuel n : Nat} (h : n < fuel) : natDecimalAux fuel n ≠ [] := by
  match fuel with
  | 0 => omega
  | fuel + 1 =>
    simp only [natDecimalAux]
    split
    · simp
    · simp

theorem natDecimalAux_all_digits {fuel : Nat} :
    ∀ {n : Nat}, n < fuel → ∀ c ∈ natDecimalAux fuel n, c.isDigit = true := by
  induction fuel with
  | zero => omega
  | succ fuel ih =>
    intro n h c hc
    simp only [natDecimalAux] at hc
    split at hc
    · rcases List.mem_singleton.mp hc with rfl
      exact digitChar_isDigit (by omega)
    · rcases List.mem_append.mp hc with hc | hc
      · exact ih (by omega : n / 10 < fuel) c hc
      · rcases List.mem_singleton.mp hc with rfl
        exact digitChar_isDigit (Nat.mod_lt _ (by omega))

theorem natDecimalAux_val {fuel : Nat} :
    ∀ {n : Nat}, n < fuel → ∀ a,
      digitsValAux a (natDecimalAux fuel n) =
        a * 10 ^ (natDecimalAux fuel n).length + n := by
  induction fuel with
  | zero => omega
  | succ fuel ih =>
    intro n h a
    simp only [natDecimalAux]
    split
    · rename_i h10
      rw [digitsValAux_cons, digitsValAux_nil, digitChar_toNat h10,
        List.length_singleton, pow_one]
      omega
    · rename_i h10
      have hrec : n / 10 < fuel := by omega
      rw [digitsValAux_append, ih hrec, List.length_append, List.length_singleton,
        digitsValAux_cons, digitsValAux_nil,
        digitChar_toNat (Nat.mod_lt n (by omega) : n % 10 < 10)]
      rw [pow_succ, ← Nat.mul_assoc]
      generalize a * 10 ^ (natDecimalAux fuel (n / 10)).length = P
      omega

theorem natDecimalAux_len_le {fuel : Nat} :
    ∀ {n k : Nat}, n < fuel → n < 10 ^ k → 1 ≤ k → (natDecimalAux fuel n).length ≤ k := by
  induction fuel with
  | zero => omega
  | succ fuel ih =>
    intro n k h hk h1
    simp only [natDecimalAux]
    split
    · simpa using h1
    · rename_i h10
      have hk2 : 2 ≤ k := by
        by_contra hlt
        have : k = 1 := by omega
        subst this
        simp [pow_one] at hk
        omega
      have hdiv : n / 10 < 10 ^ (k - 1) := by
        have h10pos : (0 : Nat) < 10 := by omega
        rw [Nat.div_lt_iff_lt_mul h10pos]
        calc n < 10 ^ k := hk
        _ = 10 ^ (k - 1) * 10 := by
              rw [← pow_succ]
              congr 1
              omega
      have := ih (by omega : n / 10 < fuel) hdiv (by omega)
      rw [List.length_append, List.length_singleton]
      omega

theorem natDecimal_ne_nil (n : Nat) : natDecimal n ≠ [] :=
  natDecimalAux_ne_nil (Nat.lt_succ_self n)

theorem natDecimal_all_digits (n : Nat) : ∀ c ∈ natDecimal n, c.isDigit = true :=
  natDecimalAux_all_digits (Nat.lt_succ_self n)

theorem digitsVal_natDecimal (n : Nat) : digitsVal (natDecimal n) = n := by
  have := natDecimalAux_val (Nat.lt_succ_self n) 0
  simpa [digitsVal, natDecimal] using this

theorem natDecimal_len_le {n k : Nat} (hk : n < 10 ^ k) (h1 : 1 ≤ k) :
    (natDecimal n).length ≤ k :=
  natDecimalAux_len_le (Nat.lt_succ_self n) hk h1

/-! ## Character class lemmas -/

theorem ne_of_isDigit {c d : Char} (h : c.isDigit = true) (hd : d.isDigit = false) :
    c ≠ d := by
  intro he
  rw [he] at h
  rw [h] at hd
  exact absurd hd (by decide)

theorem not_ws_of_isDigit {c : Char} (h : c.isDigit = true) : c.isWhitespace = false := by
  cases hw : c.isWhitespace
  · rfl
  · exfalso
    have hw' := hw
    simp only [Char.isWhitespace, Bool.or_eq_true, decide_eq_true_eq] at hw'
    rcases hw' with ((h1 | h1) | h1) | h1 <;> (rw [h1] at h; exact absurd h (by decide))

/-! ## Integer literal lemmas -/

theorem intLitVal?_cons (c : Char) (rest : List Char) :
    intLitVal? (c :: rest) =
      if c = '-' then
        if digitsOnly rest then some (-(digitsVal rest : Int)) else none
      else if c = '+' then
        if digitsOnly rest then some ((digitsVal rest : Int)) else none
      else if digitsOnly (c :: rest) then some ((digitsVal (c :: rest) : Int))
      else none := rfl

theorem floatLitVal?_cons (c : Char) (rest : List Char) :
    floatLitVal? (c :: rest) =
      if c = '-' then (floatCore? rest).map (fun p => (-(p.1 : Int), p.2))
      else if c = '+' then (floatCore? (c :: rest).tail).map (fun p => ((p.1 : Int), p.2))
      else (floatCore? (c :: rest)).map (fun p => ((p.1 : Int), p.2)) := rfl

theorem digitsOnly_eq_true {cs : List Char} :
    digitsOnly cs = true ↔ cs ≠ [] ∧ ∀ c ∈ cs, c.isDigit = true := by
  simp [digitsOnly, List.isEmpty_iff, List.all_eq_true]

theorem digitsOnly_natDecimal (n : Nat) : digitsOnly (natDecimal n) = true :=
  digitsOnly_eq_true.mpr ⟨natDecimal_ne_nil n, natDecimal_all_digits n⟩

theorem digitsOnly_false_of_mem {cs : List Char} {c : Char} (hc : c ∈ cs)
    (h : c.isDigit = false) : digitsOnly cs = false := by
  cases hd : digitsOnly cs
  · rfl
  · exact absurd ((digitsOnly_eq_true.mp hd).2 c hc) (by rw [h]; exact Bool.false_ne_true)

theorem natDecimal_head_digit (n : Nat) :
    ∃ c cs, natDecimal n = c :: cs ∧ c.isDigit = true := by
  rcases h : natDecimal n with _ | ⟨c, cs⟩
  · exact absurd h (natDecimal_ne_nil n)
  · refine ⟨c, cs, rfl, ?_⟩
    exact natDecimal_all_digits n c (h ▸ List.mem_cons_self c cs)

theorem digitsVal_cast (cs : List Char) : ((digitsVal cs : Nat) : Int) = digitsVal cs := rfl

theorem intLitVal?_natDecimal (n : Nat) : intLitVal? (natDecimal n) = some (n : Int) := by
  obtain ⟨c, cs, hcons, hdig⟩ := natDecimal_head_digit n
  rw [hcons, intLitVal?_cons,
    if_neg (ne_of_isDigit hdig (by decide)),
    if_neg (ne_of_isDigit hdig (by decide)),
    if_pos (hcons ▸ digitsOnly_natDecimal n)]
  rw [← hcons, digitsVal_natDecimal]

theorem intLitVal?_intDecimal (i : Int) : intLitVal? (intDecimal i) = some i := by
  by_cases hneg : i < 0
  · rw [intDecimal, if_pos hneg, intLitVal?_cons, if_pos rfl,
      if_pos (digitsOnly_natDecimal i.natAbs), digitsVal_natDecimal]
    congr 1
    omega
  · rw [intDecimal, if_neg hneg, intLitVal?_natDecimal]
    congr 1
    omega

theorem intLitVal?_none_of_head {c : Char} (rest : List Char) (h1 : ¬c = '-')
    (h2 : ¬c = '+') (h3 : c.isDigit = false) : intLitVal? (c :: rest) = none := by
  rw [intLitVal?_cons, if_neg h1, if_neg h2,
    if_neg (by rw [digitsOnly_false_of_mem (List.mem_cons_self c rest) h3]; exact Bool.false_ne_true)]

theorem floatLitVal?_none_of_head {c : Char} (rest : List Char) (h1 : ¬c = '-')
    (h2 : ¬c = '+') (h3 : c.isDigit = false) (h4 : ¬c = '.') :
    floatLitVal? (c :: rest) = none := by
  rw [floatLitVal?_cons, if_neg h1, if_neg h2]
  have hcore : floatCore? (c :: rest) = none := by
    have ht : (c :: rest).takeWhile Char.isDigit = [] := List.takeWhile_cons_of_neg (by rw [h3]; exact Bool.false_ne_true)
    have hd : (c :: rest).dropWhile Char.isDigit = c :: rest := List.dropWhile_cons_of_neg (by rw [h3]; exact Bool.false_ne_true)
    simp only [floatCore?, ht, hd]
    rw [if_neg h4]
  rw [hcore]
  rfl

/-! ## Float literal lemmas -/

theorem digitsVal_replicate_zero_append (k : Nat) (ds : List Char) :
    digitsVal (List.replicate k '0' ++ ds) = digitsVal ds := by
  induction k with
  | zero => rw [List.replicate_zero, List.nil_append]
  | succ k ih =>
    rw [List.replicate_succ, List.cons_append]
    show digitsValAux 0 _ = _
    rw [digitsValAux_cons]
    exact ih

theorem floatCore?_parts (a scale : Nat) (hs : 1 ≤ scale) :
    floatCore? (natDecimal (a / 10 ^ scale) ++ '.' ::
        (List.replicate (scale - (natDecimal (a % 10 ^ scale)).length) '0' ++
          natDecimal (a % 10 ^ scale))) = some (a, scale) := by
  set ip := natDecimal (a / 10 ^ scale) with hip
  set fd := natDecimal (a % 10 ^ scale) with hfd
  set frac := List.replicate (scale - fd.length) '0' ++ fd with hfrac
  have hpow : 0 < 10 ^ scale := pow_pos (by omega) scale
  have hmod : a % 10 ^ scale < 10 ^ scale := Nat.mod_lt _ hpow
  have hfdlen : fd.length ≤ scale := natDecimal_len_le hmod hs
  have hfraclen : frac.length = scale := by
    rw [hfrac, List.length_append, List.length_replicate]
    omega
  have hipdig : ∀ c ∈ ip, c.isDigit = true := natDecimal_all_digits _
  have hfracdig : ∀ c ∈ frac, c.isDigit = true := by
    intro c hc
    rcases List.mem_append.mp hc with hc | hc
    · rw [List.eq_of_mem_replicate hc]
      decide
    · exact natDecimal_all_digits _ c hc
  have ht : (ip ++ '.' :: frac).takeWhile Char.isDigit = ip := by
    rw [List.takeWhile_append_of_pos hipdig, List.takeWhile_cons_of_neg (by decide),
      List.append_nil]
  have hd : (ip ++ '.' :: frac).dropWhile Char.isDigit = '.' :: frac := by
    rw [List.dropWhile_append_of_pos hipdig, List.dropWhile_cons_of_neg (by decide)]
  have hcond : ((!ip.isEmpty || !frac.isEmpty) && frac.all Char.isDigit) = true := by
    have h1 : ip.isEmpty = false := by
      cases hE : ip.isEmpty
      · rfl
      · exact absurd (List.isEmpty_iff.mp hE) (natDecimal_ne_nil _)
    rw [h1, List.all_eq_true.mpr hfracdig]
    rfl
  simp only [floatCore?, ht, hd]
  rw [if_pos trivial, if_pos hcond]
  rw [hfraclen, hip, digitsVal_natDecimal, digitsVal_replicate_zero_append,
    digitsVal_natDecimal]
  rw [Nat.mul_comm, Nat.div_add_mod]

theorem floatLitVal?_floatDecimal (num : Int) (scale : Nat) (hs : 1 ≤ scale) :
    floatLitVal? (floatDecimal num scale) = some (num, scale) := by
  by_cases hneg : num < 0
  · have hform : floatDecimal num scale = '-' ::
        (natDecimal (num.natAbs / 10 ^ scale) ++ '.' ::
          (List.replicate (scale - (natDecimal (num.natAbs % 10 ^ scale)).length) '0' ++
            natDecimal (num.natAbs % 10 ^ scale))) := by
      simp only [floatDecimal, if_pos hneg, List.singleton_append, List.cons_append, List.nil_append]
    rw [hform, floatLitVal?_cons, if_pos rfl, floatCore?_parts _ _ hs, Option.map_some']
    congr 2
    omega
  · obtain ⟨c, cs, hcons, hdig⟩ := natDecimal_head_digit (num.natAbs / 10 ^ scale)
    have hform : floatDecimal num scale = c ::
        (cs ++ '.' ::
          (List.replicate (scale - (natDecimal (num.natAbs % 10 ^ scale)).length) '0' ++
            natDecimal (num.natAbs % 10 ^ scale))) := by
      simp only [floatDecimal, if_neg hneg, List.nil_append, hcons, List.cons_append]
    rw [hform, floatLitVal?_cons,
      if_neg (ne_of_isDigit hdig (by decide)),
      if_neg (ne_of_isDigit hdig (by decide)),
      ← List.cons_append, ← hcons, floatCore?_parts _ _ hs, Option.map_some']
    congr 2
    omega

theorem intLitVal?_floatDecimal (num : Int) (scale : Nat) :
    intLitVal? (floatDecimal num scale) = none := by
  by_cases hneg : num < 0
  · have hform : floatDecimal num scale = '-' ::
        (natDecimal (num.natAbs / 10 ^ scale) ++ '.' ::
          (List.replicate (scale - (natDecimal (num.natAbs % 10 ^ scale)).length) '0' ++
            natDecimal (num.natAbs % 10 ^ scale))) := by
      simp only [floatDecimal, if_pos hneg, List.singleton_append, List.cons_append, List.nil_append]
    rw [hform, intLitVal?_cons, if_pos rfl]
    rw [if_neg ?_]
    · rw [digitsOnly_false_of_mem
        (List.mem_append_right _ (List.mem_cons_self _ _)) (by decide : ('.' : Char).isDigit = false)]
      exact Bool.false_ne_true
  · obtain ⟨c, cs, hcons, hdig⟩ := natDecimal_head_digit (num.natAbs / 10 ^ scale)
    have hform : floatDecimal num scale = c ::
        (cs ++ '.' ::
          (List.replicate (scale - (natDecimal (num.natAbs % 10 ^ scale)).length) '0' ++
            natDecimal (num.natAbs % 10 ^ scale))) := by
      simp only [floatDecimal, if_neg hneg, List.nil_append, hcons, List.cons_append]
    rw [hform, intLitVal?_cons,
      if_neg (ne_of_isDigit hdig (by decide)),
      if_neg (ne_of_isDigit hdig (by decide))]
    rw [if_neg ?_]
    · rw [digitsOnly_false_of_mem
        (List.mem_cons_of_mem c (List.mem_append_right _ (List.mem_cons_self _ _)))
        (by decide : ('.' : Char).isDigit = false)]
      exact Bool.false_ne_true

/-! ## Scalar parser case lemmas -/

theorem toList_mk (cs : List Char) : (String.mk cs).toList = cs := rfl

theorem mk_toList (s : String) : String.mk s.toList = s := rfl

theorem string_toList_inj {s t : String} (h : s.toList = t.toList) : s = t := by
  rw [← mk_toList s, ← mk_toList t, h]

theorem parseValueChars_def (cs : List Char) :
    parseValueChars cs =
      if cs = "missing value".toList then .null
      else if cs = "true".toList then .bool true
      else if cs = "false".toList then .bool false
      else
        match intLitVal? cs with
        | some n => .int n
        | none =>
          match floatLitVal? cs with
          | some p => .float p.1 p.2
          | none => stripQuotedChars cs := rfl

theorem stripQuotedChars_cons (c : Char) (rest : List Char) :
    stripQuotedChars (c :: rest) =
      if c = dquote ∧ rest ≠ [] ∧ rest.getLast? = some dquote then
        .str (String.mk rest.dropLast)
      else .str (String.mk (c :: rest)) := rfl

theorem stripQuotedChars_quoted (mid : List Char) :
    stripQuotedChars (dquote :: (mid ++ [dquote])) = .str (String.mk mid) := by
  rw [stripQuotedChars_cons,
    if_pos ⟨rfl, by simp, List.getLast?_concat mid⟩, List.dropLast_concat]

theorem stripQuotedChars_not_quote {cs : List Char} (hq : cs.head? ≠ some dquote) :
    stripQuotedChars cs = .str (String.mk cs) := by
  cases cs with
  | nil => rfl
  | cons c rest =>
    rw [stripQuotedChars_cons, if_neg ?_]
    intro hcond
    exact hq (by rw [List.head?_cons, hcond.1])

theorem stripQuotedChars_default {cs : List Char}
    (h : ¬(cs.head? = some dquote ∧ cs.getLast? = some dquote ∧ 2 ≤ cs.length)) :
    stripQuotedChars cs = .str (String.mk cs) := by
  cases cs with
  | nil => rfl
  | cons c rest =>
    rw [stripQuotedChars_cons, if_neg ?_]
    rintro ⟨rfl, hne, hlast⟩
    rcases rest with _ | ⟨r, rs⟩
    · exact hne rfl
    · refine h ⟨rfl, ?_, by simp⟩
      rw [List.getLast?_cons_cons]
      exact hlast

theorem parseValueChars_int {cs : List Char} {n : Int} (h : intLitVal? cs = some n) :
    parseValueChars cs = .int n := by
  have hm : cs ≠ "missing value".toList := by
    intro he
    rw [he, (by decide : intLitVal? ("missing value".toList) = none)] at h
    exact Option.noConfusion h
  have ht : cs ≠ "true".toList := by
    intro he
    rw [he, (by decide : intLitVal? ("true".toList) = none)] at h
    exact Option.noConfusion h
  have hf : cs ≠ "false".toList := by
    intro he
    rw [he, (by decide : intLitVal? ("false".toList) = none)] at h
    exact Option.noConfusion h
  rw [parseValueChars_def, if_neg hm, if_neg ht, if_neg hf, h]

theorem parseValueChars_float {cs : List Char} {num : Int} {scale : Nat}
    (hi : intLitVal? cs = none) (h : floatLitVal? cs = some (num, scale)) :
    parseValueChars cs = .float num scale := by
  have hm : cs ≠ "missing value".toList := by
    intro he
    rw [he, (by decide : floatLitVal? ("missing value".toList) = none)] at h
    exact Option.noConfusion h
  have ht : cs ≠ "true".toList := by
    intro he
    rw [he, (by decide : floatLitVal? ("true".toList) = none)] at h
    exact Option.noConfusion h
  have hf : cs ≠ "false".toList := by
    intro he
    rw [he, (by decide : floatLitVal? ("false".toList) = none)] at h
    exact Option.noConfusion h
  rw [parseValueChars_def, if_neg hm, if_neg ht, if_neg hf, hi, h]

theorem head_ne_imp_ne {xs ys : List Char} (h : xs.head? ≠ ys.head?) : xs ≠ ys :=
  fun he => h (he ▸ rfl)

theorem parseValueChars_quoted (mid : List Char) :
    parseValueChars (dquote :: (mid ++ [dquote])) = .str (String.mk mid) := by
  have hm : dquote :: (mid ++ [dquote]) ≠ "missing value".toList :=
    head_ne_imp_ne (by rw [List.head?_cons]; decide)
  have ht : dquote :: (mid ++ [dquote]) ≠ "true".toList :=
    head_ne_imp_ne (by rw [List.head?_cons]; decide)
  have hf : dquote :: (mid ++ [dquote]) ≠ "false".toList :=
    head_ne_imp_ne (by rw [List.head?_cons]; decide)
  rw [parseValueChars_def, if_neg hm, if_neg ht, if_neg hf,
    intLitVal?_none_of_head _ (by decide) (by decide) (by decide),
    floatLitVal?_none_of_head _ (by decide) (by decide) (by decide) (by decide)]
  exact stripQuotedChars_quoted mid

theorem parseValueChars_inert {cs : List Char} (h : inertChars cs = true) :
    parseValueChars cs = .str (String.mk cs) := by
  simp only [inertChars, Bool.and_eq_true, decide_eq_true_eq, Option.isNone_iff_eq_none] at h
  obtain ⟨⟨⟨⟨⟨hm, ht⟩, hf⟩, hi⟩, hfl⟩, hq⟩ := h
  rw [parseValueChars_def, if_neg hm, if_neg ht, if_neg hf, hi, hfl]
  exact stripQuotedChars_not_quote hq

/-! ## Escaper lemmas -/

theorem charReplace_cons (t : Char) (r : List Char) (c : Char) (cs : List Char) :
    charReplace t r (c :: cs) = (if c = t then r else [c]) ++ charReplace t r cs := rfl

theorem charReplace_id {t : Char} {r cs : List Char} (h : ∀ c ∈ cs, c ≠ t) :
    charReplace t r cs = cs := by
  induction cs with
  | nil => rfl
  | cons c cs ih =>
    rw [charReplace_cons, if_neg (h c (List.mem_cons_self c cs)),
      ih (fun x hx => h x (List.mem_cons_of_mem c hx)), List.singleton_append]

theorem charReplace_append (t : Char) (r xs ys : List Char) :
    charReplace t r (xs ++ ys) = charReplace t r xs ++ charReplace t r ys := by
  induction xs with
  | nil => rfl
  | cons c cs ih =>
    rw [List.cons_append, charReplace_cons, charReplace_cons, ih, List.append_assoc]

theorem cleanChar_spec {c : Char} (h : cleanChar c = true) :
    c ≠ dquote ∧ c ≠ bslash ∧ c ≠ squote := by
  simpa [cleanChar, and_assoc] using h

theorem escapeChars_clean {cs : List Char} (h : ∀ c ∈ cs, cleanChar c = true) :
    escapeChars cs = cs := by
  unfold escapeChars
  rw [charReplace_id (fun c hc => (cleanChar_spec (h c hc)).2.1),
    charReplace_id (fun c hc => (cleanChar_spec (h c hc)).1),
    charReplace_id (fun c hc => (cleanChar_spec (h c hc)).2.2)]

theorem escapeChars_eq_escapeSpec (cs : List Char) : escapeChars cs = escapeSpec cs := by
  induction cs with
  | nil => rfl
  | cons c cs ih =>
    have hexp : escapeChars (c :: cs) =
        charReplace squote [bslash, squote] (charReplace dquote [bslash, dquote]
          ((if c = bslash then [bslash, bslash] else [c]) ++
            charReplace bslash [bslash, bslash] cs)) := rfl
    rw [hexp, charReplace_append, charReplace_append,
      show charReplace squote [bslash, squote] (charReplace dquote [bslash, dquote]
        (charReplace bslash [bslash, bslash] cs)) = escapeSpec cs from ih]
    show _ ++ _ = (if c = dquote ∨ c = bslash ∨ c = squote then [bslash, c] else [c]) ++ escapeSpec cs
    congr 1
    by_cases h1 : c = bslash
    · subst h1
      decide
    by_cases h2 : c = dquote
    · subst h2
      decide
    by_cases h3 : c = squote
    · subst h3
      decide
    rw [if_neg h1, if_neg (fun hor => hor.elim h2 (fun hor2 => hor2.elim h1 h3))]
    rw [charReplace_id (show ∀ x ∈ ([c] : List Char), x ≠ dquote by simpa using h2)]
    rw [charReplace_id (show ∀ x ∈ ([c] : List Char), x ≠ squote by simpa using h3)]

/-! ## Scalar round trip -/

theorem parseValueChars_scalarChars {v : ParsedValue} (h : scalarOK v = true) :
    parseValueChars (scalarChars v) = v := by
  cases v with
  | null => decide
  | bool b => cases b <;> decide
  | int n => exact parseValueChars_int (intLitVal?_intDecimal n)
  | float num scale =>
    have hs : 1 ≤ scale := by simpa [scalarOK] using h
    exact parseValueChars_float (intLitVal?_floatDecimal num scale)
      (floatLitVal?_floatDecimal num scale hs)
  | str s =>
    have hcl : ∀ c ∈ s.toList, cleanChar c = true := by
      simpa [scalarOK, cleanString, List.all_eq_true] using h
    have hform : scalarChars (.str s) = dquote :: (s.toList ++ [dquote]) := by
      show dquote :: (escapeChars s.toList ++ [dquote]) = _
      rw [escapeChars_clean hcl]
    rw [hform, parseValueChars_quoted, mk_toList]

/-! ## Trimming, quote stripping and brace stripping -/

theorem optNotWs_spec {o : Option Char} {c : Char} (h : optNotWs o = true)
    (he : o = some c) : c.isWhitespace = false := by
  subst he
  simpa [optNotWs] using h

theorem trimChars_eq_self {cs : List Char} (h1 : optNotWs cs.head? = true)
    (h2 : optNotWs cs.getLast? = true) : trimChars cs = cs := by
  cases cs with
  | nil => rfl
  | cons c rest =>
    unfold trimChars
    rw [List.dropWhile_cons_of_neg (by simp [optNotWs_spec h1 List.head?_cons])]
    rcases hr : (c :: rest).reverse with _ | ⟨d, rr⟩
    · exact absurd hr (by simp)
    · have hd : d.isWhitespace = false :=
        optNotWs_spec h2 (by rw [← List.head?_reverse, hr]; rfl)
      rw [List.dropWhile_cons_of_neg (by simp [hd]), ← hr, List.reverse_reverse]

theorem trimChars_space_cons (cs : List Char) : trimChars (' ' :: cs) = trimChars cs := by
  unfold trimChars
  rw [List.dropWhile_cons_of_pos (by decide)]

theorem getLast?_append_of_ne_nil (xs : List Char) {ys : List Char} (h : ys ≠ []) :
    (xs ++ ys).getLast? = ys.getLast? := by
  rcases hr : ys.reverse with _ | ⟨d, rr⟩
  · exact absurd (by simpa using congrArg List.reverse hr) h
  · have hy : ys.getLast? = some d := by rw [← List.head?_reverse, hr]; rfl
    rw [List.getLast?_append, hy, Option.or_some]

theorem stripQuotes_cons (c : Char) (rest : List Char) :
    stripQuotes (c :: rest) =
      if c = dquote ∧ rest ≠ [] ∧ rest.getLast? = some dquote then rest.dropLast
      else c :: rest := rfl

theorem stripQuotes_quoted (mid : List Char) :
    stripQuotes (dquote :: (mid ++ [dquote])) = mid := by
  rw [stripQuotes_cons, if_pos ⟨rfl, by simp, List.getLast?_concat mid⟩,
    List.dropLast_concat]

theorem stripQuotes_not_quote {cs : List Char} (h : cs.head? ≠ some dquote) :
    stripQuotes cs = cs := by
  cases cs with
  | nil => rfl
  | cons c rest =>
    rw [stripQuotes_cons, if_neg ?_]
    intro hcond
    exact h (by rw [List.head?_cons, hcond.1])

theorem stripBracesChars_wrapped (inner : List Char) :
    stripBracesChars ('{' :: (inner ++ ['}'])) = inner := by
  have hlast : ('{' :: (inner ++ ['}'])).getLast? = some '}' := by
    rw [← List.cons_append, List.getLast?_concat]
  have htrim : trimChars ('{' :: (inner ++ ['}'])) = '{' :: (inner ++ ['}']) := by
    refine @trimChars_eq_self ('{' :: (inner ++ ['}'])) (by rfl) ?_
    rw [hlast]
    decide
  unfold stripBracesChars
  rw [htrim, if_pos ⟨List.head?_cons, hlast, by simp⟩, List.drop_one, List.tail_cons,
    List.dropLast_concat]

/-! ## Top-level splitter lemmas -/

theorem splitTopLevel_nil (depth : Nat) (inQ : Bool) (cur : List Char) :
    splitTopLevel [] depth inQ cur = [cur.reverse] := rfl

theorem splitTopLevel_cons_false (c : Char) (rest : List Char) (depth : Nat)
    (cur : List Char) :
    splitTopLevel (c :: rest) depth false cur =
      if c = dquote then splitTopLevel rest depth true (c :: cur)
      else if c = '{' then splitTopLevel rest (depth + 1) false (c :: cur)
      else if c = '}' then splitTopLevel rest (depth - 1) false (c :: cur)
      else if c = ',' ∧ depth = 0 then cur.reverse :: splitTopLevel rest 0 false []
      else splitTopLevel rest depth false (c :: cur) := rfl

theorem splitTopLevel_cons_true (c : Char) (rest : List Char) (depth : Nat)
    (cur : List Char) :
    splitTopLevel (c :: rest) depth true cur =
      if c = dquote then splitTopLevel rest depth false (c :: cur)
      else splitTopLevel rest depth true (c :: cur) := rfl

theorem countTopLevelCommas_nil (depth : Nat) (inQ : Bool) :
    countTopLevelCommas [] depth inQ = 0 := rfl

theorem countTopLevelCommas_cons_false (c : Char) (rest : List Char) (depth : Nat) :
    countTopLevelCommas (c :: rest) depth false =
      if c = dquote then countTopLevelCommas rest depth true
      else if c = '{' then countTopLevelCommas rest (depth + 1) false
      else if c = '}' then countTopLevelCommas rest (depth - 1) false
      else if c = ',' ∧ depth = 0 then countTopLevelCommas rest 0 false + 1
      else countTopLevelCommas rest depth false := rfl

theorem countTopLevelCommas_cons_true (c : Char) (rest : List Char) (depth : Nat) :
    countTopLevelCommas (c :: rest) depth true =
      if c = dquote then countTopLevelCommas rest depth false
      else countTopLevelCommas rest depth true := rfl

theorem splitTopLevel_length :
    ∀ (cs : List Char) (depth : Nat) (inQ : Bool) (cur : List Char),
      (splitTopLevel cs depth inQ cur).length = countTopLevelCommas cs depth inQ + 1 := by
  intro cs
  induction cs with
  | nil =>
    intro depth inQ cur
    rw [splitTopLevel_nil, countTopLevelCommas_nil]
    rfl
  | cons c rest ih =>
    intro depth inQ cur
    cases inQ
    · rw [splitTopLevel_cons_false, countTopLevelCommas_cons_false]
      split_ifs <;> simp [ih]
    · rw [splitTopLevel_cons_true, countTopLevelCommas_cons_true]
      split_ifs <;> simp [ih]

theorem scan_atom {p : List Char}
    (hp : ∀ c ∈ p, c ≠ dquote ∧ c ≠ '{' ∧ c ≠ '}' ∧ c ≠ ',') :
    ∀ rest acc, splitTopLevel (p ++ rest) 0 false acc =
      splitTopLevel rest 0 false (p.reverse ++ acc) := by
  induction p with
  | nil => intro rest acc; rw [List.nil_append, List.reverse_nil, List.nil_append]
  | cons c cs ih =>
    intro rest acc
    obtain ⟨h1, h2, h3, h4⟩ := hp c (List.mem_cons_self c cs)
    rw [List.cons_append, splitTopLevel_cons_false, if_neg h1, if_neg h2, if_neg h3,
      if_neg (fun hc => h4 hc.1),
      ih (fun x hx => hp x (List.mem_cons_of_mem c hx)) rest (c :: acc)]
    rw [List.reverse_cons, List.append_assoc, List.singleton_append]

theorem scan_quoted_mid {mid : List Char} (h : ∀ c ∈ mid, c ≠ dquote) :
    ∀ rest acc depth, splitTopLevel (mid ++ rest) depth true acc =
      splitTopLevel rest depth true (mid.reverse ++ acc) := by
  induction mid with
  | nil => intro rest acc depth; rw [List.nil_append, List.reverse_nil, List.nil_append]
  | cons c cs ih =>
    intro rest acc depth
    rw [List.cons_append, splitTopLevel_cons_true,
      if_neg (h c (List.mem_cons_self c cs)),
      ih (fun x hx => h x (List.mem_cons_of_mem c hx)) rest (c :: acc) depth]
    rw [List.reverse_cons, List.append_assoc, List.singleton_append]

theorem scan_quoted {mid : List Char} (h : ∀ c ∈ mid, c ≠ dquote) :
    ∀ rest acc, splitTopLevel ((dquote :: (mid ++ [dquote])) ++ rest) 0 false acc =
      splitTopLevel rest 0 false ((dquote :: (mid ++ [dquote])).reverse ++ acc) := by
  intro rest acc
  rw [List.cons_append, splitTopLevel_cons_false, if_pos rfl, List.append_assoc,
    List.singleton_append, scan_quoted_mid h (dquote :: rest) (dquote :: acc) 0,
    splitTopLevel_cons_true, if_pos rfl]
  congr 1
  rw [List.reverse_cons, List.reverse_append, List.reverse_singleton]
  simp [List.append_assoc]

theorem scan_piece {p : List Char} (hp : ScalarPiece p) :
    ∀ rest acc, splitTopLevel (p ++ rest) 0 false acc =
      splitTopLevel rest 0 false (p.reverse ++ acc) := by
  rcases hp with hp | ⟨mid, rfl, hmid⟩
  · exact scan_atom hp.2.1
  · exact scan_quoted hmid

theorem joinComma_one (p : List Char) : joinComma [p] = p := rfl

theorem joinComma_cons₂ (p q : List Char) (ps : List (List Char)) :
    joinComma (p :: q :: ps) = p ++ ',' :: ' ' :: joinComma (q :: ps) := rfl

theorem splitTopLevel_joinComma :
    ∀ (ps : List (List Char)) (p : List Char), ScalarPiece p → (∀ q ∈ ps, ScalarPiece q) →
      ∀ acc, splitTopLevel (joinComma (p :: ps)) 0 false acc =
        (acc.reverse ++ p) :: ps.map (fun q => ' ' :: q) := by
  intro ps
  induction ps with
  | nil =>
    intro p hp _ acc
    have hs := scan_piece hp [] acc
    rw [List.append_nil, splitTopLevel_nil] at hs
    rw [joinComma_one, hs, List.reverse_append, List.reverse_reverse, List.map_nil]
  | cons q qs ih =>
    intro p hp hqs acc
    rw [joinComma_cons₂, scan_piece hp _ acc, splitTopLevel_cons_false,
      if_neg (by decide), if_neg (by decide), if_neg (by decide),
      if_pos ⟨rfl, rfl⟩, splitTopLevel_cons_false,
      if_neg (by decide), if_neg (by decide), if_neg (by decide),
      if_neg (fun hc => absurd hc.1 (by decide)),
      ih q (hqs q (List.mem_cons_self q qs))
        (fun x hx => hqs x (List.mem_cons_of_mem q hx)) [' ']]
    rw [List.reverse_append, List.reverse_reverse, List.map_cons]
    rfl

/-! ## Formatted scalars are well-shaped pieces -/

theorem atomPiece_natDecimal (n : Nat) : AtomPiece (natDecimal n) := by
  refine ⟨natDecimal_ne_nil n, ?_, ?_, ?_⟩
  · intro c hc
    have hd := natDecimal_all_digits n c hc
    exact ⟨ne_of_isDigit hd (by decide), ne_of_isDigit hd (by decide),
      ne_of_isDigit hd (by decide), ne_of_isDigit hd (by decide)⟩
  · obtain ⟨c, cs, hcons, hdig⟩ := natDecimal_head_digit n
    rw [hcons, List.head?_cons]
    simp [optNotWs, not_ws_of_isDigit hdig]
  · rcases hl : (natDecimal n).getLast? with _ | d
    · exact absurd (List.getLast?_eq_none_iff.mp hl) (natDecimal_ne_nil n)
    · have hd := natDecimal_all_digits n d (List.mem_of_getLast?_eq_some hl)
      simp [optNotWs, not_ws_of_isDigit hd]

theorem atomPiece_cons_dash {p : List Char} (hp : AtomPiece p) : AtomPiece ('-' :: p) := by
  refine ⟨by simp, ?_, by rfl, ?_⟩
  · intro c hc
    rcases List.mem_cons.mp hc with rfl | hc
    · exact ⟨by decide, by decide, by decide, by decide⟩
    · exact hp.2.1 c hc
  · rw [show ('-' :: p) = ['-'] ++ p from rfl, getLast?_append_of_ne_nil _ hp.1]
    exact hp.2.2.2

theorem atomPiece_intDecimal (n : Int) : AtomPiece (intDecimal n) := by
  by_cases hneg : n < 0
  · rw [intDecimal, if_pos hneg]
    exact atomPiece_cons_dash (atomPiece_natDecimal _)
  · rw [intDecimal, if_neg hneg]
    exact atomPiece_natDecimal _

theorem atomPiece_floatDecimal (num : Int) (scale : Nat) :
    AtomPiece (floatDecimal num scale) := by
  have hunsigned : AtomPiece (natDecimal (num.natAbs / 10 ^ scale) ++ '.' ::
      (List.replicate (scale - (natDecimal (num.natAbs % 10 ^ scale)).length) '0' ++
        natDecimal (num.natAbs % 10 ^ scale))) := by
    refine ⟨by simp, ?_, ?_, ?_⟩
    · intro c hc
      rcases List.mem_append.mp hc with hc | hc
      · have hd := natDecimal_all_digits _ c hc
        exact ⟨ne_of_isDigit hd (by decide), ne_of_isDigit hd (by decide),
          ne_of_isDigit hd (by decide), ne_of_isDigit hd (by decide)⟩
      · rcases List.mem_cons.mp hc with rfl | hc
        · exact ⟨by decide, by decide, by decide, by decide⟩
        · rcases List.mem_append.mp hc with hc | hc
          · rw [List.eq_of_mem_replicate hc]
            exact ⟨by decide, by decide, by decide, by decide⟩
          · have hd := natDecimal_all_digits _ c hc
            exact ⟨ne_of_isDigit hd (by decide), ne_of_isDigit hd (by decide),
              ne_of_isDigit hd (by decide), ne_of_isDigit hd (by decide)⟩
    · obtain ⟨c, cs, hcons, hdig⟩ := natDecimal_head_digit (num.natAbs / 10 ^ scale)
      rw [hcons, List.cons_append, List.head?_cons]
      simp [optNotWs, not_ws_of_isDigit hdig]
    · rw [getLast?_append_of_ne_nil _ (by simp),
        show ('.' :: (List.replicate (scale - (natDecimal (num.natAbs % 10 ^ scale)).length) '0' ++
          natDecimal (num.natAbs % 10 ^ scale))) = ['.'] ++
          (List.replicate (scale - (natDecimal (num.natAbs % 10 ^ scale)).length) '0' ++
          natDecimal (num.natAbs % 10 ^ scale)) from rfl,
        getLast?_append_of_ne_nil _ (by simp [natDecimal_ne_nil]),
        getLast?_append_of_ne_nil _ (natDecimal_ne_nil _)]
      rcases hl : (natDecimal (num.natAbs % 10 ^ scale)).getLast? with _ | d
      · exact absurd (List.getLast?_eq_none_iff.mp hl) (natDecimal_ne_nil _)
      · have hd := natDecimal_all_digits _ d (List.mem_of_getLast?_eq_some hl)
        simp [optNotWs, not_ws_of_isDigit hd]
  by_cases hneg : num < 0
  · have hform : floatDecimal num scale = '-' ::
        (natDecimal (num.natAbs / 10 ^ scale) ++ '.' ::
          (List.replicate (scale - (natDecimal (num.natAbs % 10 ^ scale)).length) '0' ++
            natDecimal (num.natAbs % 10 ^ scale))) := by
      simp only [floatDecimal, if_pos hneg, List.singleton_append, List.cons_append,
        List.nil_append]
    rw [hform]
    exact atomPiece_cons_dash hunsigned
  · have hform : floatDecimal num scale =
        natDecimal (num.natAbs / 10 ^ scale) ++ '.' ::
          (List.replicate (scale - (natDecimal (num.natAbs % 10 ^ scale)).length) '0' ++
            natDecimal (num.natAbs % 10 ^ scale)) := by
      simp only [floatDecimal, if_neg hneg, List.nil_append]
    rw [hform]
    exact hunsigned

theorem cleanString_chars {s : String} (h : cleanString s = true) :
    ∀ c ∈ s.toList, cleanChar c = true := by
  simpa [cleanString, List.all_eq_true] using h

theorem scalarChars_str_clean {s : String} (h : cleanString s = true) :
    scalarChars (.str s) = dquote :: (s.toList ++ [dquote]) := by
  show dquote :: (escapeChars s.toList ++ [dquote]) = _
  rw [escapeChars_clean (cleanString_chars h)]

theorem scalarPiece_scalarChars {v : ParsedValue} (h : listElemOK v = true) :
    ScalarPiece (scalarChars v) := by
  cases v with
  | null => exact Or.inl (by unfold AtomPiece; decide)
  | bool b => cases b <;> exact Or.inl (by unfold AtomPiece; decide)
  | int n => exact Or.inl (atomPiece_intDecimal n)
  | float num scale => exact Or.inl (atomPiece_floatDecimal num scale)
  | str s =>
    have hcl : cleanString s = true := by
      simp only [listElemOK, Bool.and_eq_true] at h
      exact h.1
    exact Or.inr ⟨s.toList, scalarChars_str_clean hcl,
      fun c hc => (cleanChar_spec (cleanString_chars hcl c hc)).1⟩

/-! ## Element round trip through the list parser's post-processing -/

theorem trim_of_scalarPiece {p : List Char} (hp : ScalarPiece p) : trimChars p = p := by
  rcases hp with ⟨_, _, hh, hl⟩ | ⟨mid, rfl, _⟩
  · exact trimChars_eq_self hh hl
  · refine @trimChars_eq_self (dquote :: (mid ++ [dquote])) (by rfl) ?_
    rw [show dquote :: (mid ++ [dquote]) = (dquote :: mid) ++ [dquote] from rfl,
      List.getLast?_concat]
    decide

theorem head_ne_dquote_of_atom {p : List Char} (hp : AtomPiece p) :
    p.head? ≠ some dquote := by
  intro hh
  obtain ⟨ys, hys⟩ := List.head?_eq_some_iff.mp hh
  exact (hp.2.1 dquote (hys ▸ List.mem_cons_self _ _)).1 rfl

theorem elemParse {v : ParsedValue} (h : listElemOK v = true) :
    parseValueChars (stripQuotes (trimChars (scalarChars v))) = v := by
  rw [trim_of_scalarPiece (scalarPiece_scalarChars h)]
  cases v with
  | null => decide
  | bool b => cases b <;> decide
  | int n =>
    show parseValueChars (stripQuotes (intDecimal n)) = ParsedValue.int n
    rw [stripQuotes_not_quote (head_ne_dquote_of_atom (atomPiece_intDecimal n))]
    exact @parseValueChars_scalarChars (ParsedValue.int n) h
  | float num scale =>
    show parseValueChars (stripQuotes (floatDecimal num scale)) = ParsedValue.float num scale
    rw [stripQuotes_not_quote (head_ne_dquote_of_atom (atomPiece_floatDecimal num scale))]
    exact @parseValueChars_scalarChars (ParsedValue.float num scale) h
  | str s =>
    simp only [listElemOK, Bool.and_eq_true] at h
    rw [scalarChars_str_clean h.1, stripQuotes_quoted, parseValueChars_inert h.2,
      mk_toList]

/-! ## List round trip -/

theorem joinComma_nil : joinComma ([] : List (List Char)) = [] := rfl

theorem parse_applescript_list_eq (s : String) :
    parse_applescript_list s =
      if trimChars (stripBracesChars s.toList) = [] then []
      else ((splitTopLevel (stripBracesChars s.toList) 0 false []).map fun e =>
        String.mk (stripQuotes (trimChars e))) := rfl

theorem piece_head_not_ws {p : List Char} (hp : ScalarPiece p) :
    ∃ c cs, p = c :: cs ∧ c.isWhitespace = false := by
  rcases hp with ⟨hne, _, hh, _⟩ | ⟨mid, rfl, _⟩
  · rcases p with _ | ⟨c, cs⟩
    · exact absurd rfl hne
    · exact ⟨c, cs, rfl, optNotWs_spec hh List.head?_cons⟩
  · exact ⟨dquote, mid ++ [dquote], rfl, by decide⟩

theorem joinComma_cons_shape (c : Char) (cs : List Char) (ps : List (List Char)) :
    ∃ X, joinComma ((c :: cs) :: ps) = c :: X := by
  cases ps with
  | nil => exact ⟨cs, rfl⟩
  | cons q qs => exact ⟨cs ++ ',' :: ' ' :: joinComma (q :: qs), rfl⟩

theorem trim_cons_ne_nil {c : Char} (X : List Char) (hc : c.isWhitespace = false) :
    trimChars (c :: X) ≠ [] := by
  unfold trimChars
  intro h
  rw [List.dropWhile_cons_of_neg (by simp [hc]), List.reverse_eq_nil_iff,
    List.dropWhile_eq_nil_iff] at h
  have := h c (by simp)
  rw [hc] at this
  exact Bool.false_ne_true this

theorem list_roundtrip (vs : List ParsedValue) (h : ∀ v ∈ vs, listElemOK v = true) :
    (parse_applescript_list (format_applescript_value (.list vs))).map parse_value = vs := by
  cases vs with
  | nil => decide
  | cons v vs' =>
    have hfmt : (format_applescript_value (.list (v :: vs'))).toList =
        '{' :: (joinComma ((v :: vs').map scalarChars) ++ ['}']) := rfl
    rw [parse_applescript_list_eq, hfmt, stripBracesChars_wrapped]
    have hp1 : ScalarPiece (scalarChars v) :=
      scalarPiece_scalarChars (h v (List.mem_cons_self v vs'))
    have hp2 : ∀ q ∈ vs'.map scalarChars, ScalarPiece q := by
      intro q hq
      obtain ⟨w, hw, rfl⟩ := List.mem_map.mp hq
      exact scalarPiece_scalarChars (h w (List.mem_cons_of_mem v hw))
    obtain ⟨c, cs, hcons, hcws⟩ := piece_head_not_ws hp1
    have hne : trimChars (joinComma (List.map scalarChars (v :: vs'))) ≠ [] := by
      rw [List.map_cons, hcons]
      obtain ⟨X, hX⟩ := joinComma_cons_shape c cs (vs'.map scalarChars)
      rw [hX]
      exact trim_cons_ne_nil X hcws
    rw [if_neg hne, List.map_cons,
      splitTopLevel_joinComma (vs'.map scalarChars) (scalarChars v) hp1 hp2 [],
      List.reverse_nil, List.nil_append, List.map_cons, List.map_cons, List.map_map,
      List.map_map]
    congr 1
    · exact elemParse (h v (List.mem_cons_self v vs'))
    · have hpt : ∀ w ∈ vs',
          (parse_value ∘ (fun e => String.mk (stripQuotes (trimChars e))) ∘
            (fun q => ' ' :: q) ∘ scalarChars) w = id w := by
        intro w hw
        show parse_value (String.mk (stripQuotes (trimChars (' ' :: scalarChars w)))) = w
        rw [trimChars_space_cons]
        exact elemParse (h w (List.mem_cons_of_mem v hw))
      calc (vs'.map scalarChars).map
            (parse_value ∘ fun e => String.mk (stripQuotes (trimChars (' ' :: e))))
          = vs'.map (parse_value ∘ (fun e => String.mk (stripQuotes (trimChars e))) ∘
              (fun q => ' ' :: q) ∘ scalarChars) := by rw [List.map_map]; rfl
        _ = vs'.map id := List.map_congr_left hpt
        _ = vs' := List.map_id vs'

theorem parseValueChars_fallthrough {cs : List Char}
    (hm : cs ≠ "missing value".toList) (ht : cs ≠ "true".toList)
    (hf : cs ≠ "false".toList) (hi : intLitVal? cs = none)
    (hfl : floatLitVal? cs = none) :
    parseValueChars cs = stripQuotedChars cs := by
  rw [parseValueChars_def, if_neg hm, if_neg ht, if_neg hf, hi, hfl]

/-! ## Record fields formatted with a plain colon are skipped by the parser -/

theorem parse_applescript_record_eq (s : String) :
    parse_applescript_record s =
      if trimChars (stripBracesChars s.toList) = [] then []
      else (splitTopLevel (stripBracesChars s.toList) 0 false []).filterMap
        parseRecordSegment := rfl

theorem splitAssign_nil (depth : Nat) (inQ : Bool) (acc : List Char) :
    splitAssign [] depth inQ acc = none := rfl

theorem splitAssign_cons_false (c : Char) (rest : List Char) (depth : Nat)
    (acc : List Char) :
    splitAssign (c :: rest) depth false acc =
      if c = dquote then splitAssign rest depth true (c :: acc)
      else if c = '{' then splitAssign rest (depth + 1) false (c :: acc)
      else if c = '}' then splitAssign rest (depth - 1) false (c :: acc)
      else if c = ':' ∧ depth = 0 ∧ rest.head? = some '=' then
        some (acc.reverse, rest.tail)
      else splitAssign rest depth false (c :: acc) := rfl

theorem splitAssign_scan_atom {p : List Char}
    (hp : ∀ c ∈ p, c ≠ dquote ∧ c ≠ '{' ∧ c ≠ '}' ∧ c ≠ ':') :
    ∀ rest acc, splitAssign (p ++ rest) 0 false acc =
      splitAssign rest 0 false (p.reverse ++ acc) := by
  induction p with
  | nil => intro rest acc; rw [List.nil_append, List.reverse_nil, List.nil_append]
  | cons c cs ih =>
    intro rest acc
    obtain ⟨h1, h2, h3, h4⟩ := hp c (List.mem_cons_self c cs)
    rw [List.cons_append, splitAssign_cons_false, if_neg h1, if_neg h2, if_neg h3,
      if_neg (fun hc => h4 hc.1),
      ih (fun x hx => hp x (List.mem_cons_of_mem c hx)) rest (c :: acc)]
    rw [List.reverse_cons, List.append_assoc, List.singleton_append]

theorem splitAssign_none_of_atom {p : List Char}
    (hp : ∀ c ∈ p, c ≠ dquote ∧ c ≠ '{' ∧ c ≠ '}' ∧ c ≠ ':') (acc : List Char) :
    splitAssign p 0 false acc = none := by
  have h := splitAssign_scan_atom hp [] acc
  rw [List.append_nil] at h
  rw [h, splitAssign_nil]

theorem intDecimal_no_colon (n : Int) : ∀ c ∈ intDecimal n, c ≠ ':' := by
  intro c hc
  by_cases hneg : n < 0
  · rw [intDecimal, if_pos hneg] at hc
    rcases List.mem_cons.mp hc with rfl | hc
    · decide
    · exact ne_of_isDigit (natDecimal_all_digits _ c hc) (by decide)
  · rw [intDecimal, if_neg hneg] at hc
    exact ne_of_isDigit (natDecimal_all_digits _ c hc) (by decide)

theorem intDecimal_head_ne_eq (n : Int) : (intDecimal n).head? ≠ some '=' := by
  by_cases hneg : n < 0
  · rw [intDecimal, if_pos hneg, List.head?_cons]
    intro h
    exact absurd (Option.some.inj h) (by decide)
  · rw [intDecimal, if_neg hneg]
    obtain ⟨c, cs, hcons, hdig⟩ := natDecimal_head_digit n.natAbs
    rw [hcons, List.head?_cons]
    intro h
    exact ne_of_isDigit hdig (by decide) (Option.some.inj h)

theorem record_int_field_parse_empty (key : String) (n : Int)
    (hne : key.toList ≠ [])
    (hk : ∀ c ∈ key.toList, c ≠ dquote ∧ c ≠ '{' ∧ c ≠ '}' ∧ c ≠ ',' ∧ c ≠ ':' ∧
      c.isWhitespace = false) :
    parse_applescript_record
      (format_applescript_value (.record [(key, ParsedValue.int n)])) = [] := by
  have hfmt : (format_applescript_value (.record [(key, ParsedValue.int n)])).toList =
      '{' :: ((key.toList ++ ':' :: intDecimal n) ++ ['}']) := rfl
  rw [parse_applescript_record_eq, hfmt, stripBracesChars_wrapped]
  obtain ⟨c, cs, hcons⟩ : ∃ c cs, key.toList = c :: cs := by
    rcases hl : key.toList with _ | ⟨c, cs⟩
    · exact absurd hl hne
    · exact ⟨c, cs, rfl⟩
  have hcws : c.isWhitespace = false :=
    (hk c (by rw [hcons]; exact List.mem_cons_self c cs)).2.2.2.2.2
  have htrim_ne : trimChars (key.toList ++ ':' :: intDecimal n) ≠ [] := by
    rw [hcons, List.cons_append]
    exact trim_cons_ne_nil _ hcws
  rw [if_neg htrim_ne]
  have hchars : ∀ x ∈ key.toList ++ ':' :: intDecimal n,
      x ≠ dquote ∧ x ≠ '{' ∧ x ≠ '}' ∧ x ≠ ',' := by
    intro x hx
    rcases List.mem_append.mp hx with hx | hx
    · obtain ⟨a1, a2, a3, a4, _, _⟩ := hk x hx
      exact ⟨a1, a2, a3, a4⟩
    · rcases List.mem_cons.mp hx with rfl | hx
      · exact ⟨by decide, by decide, by decide, by decide⟩
      · exact (atomPiece_intDecimal n).2.1 x hx
  have hsplit : splitTopLevel (key.toList ++ ':' :: intDecimal n) 0 false [] =
      [key.toList ++ ':' :: intDecimal n] := by
    have h := scan_atom hchars [] []
    rw [List.append_nil, splitTopLevel_nil, List.append_nil, List.reverse_reverse] at h
    exact h
  rw [hsplit]
  have hnone : splitAssign (key.toList ++ ':' :: intDecimal n) 0 false [] = none := by
    rw [splitAssign_scan_atom
      (fun x hx => ⟨(hk x hx).1, (hk x hx).2.1, (hk x hx).2.2.1, (hk x hx).2.2.2.2.1⟩)
      (':' :: intDecimal n) [],
      splitAssign_cons_false, if_neg (by decide), if_neg (by decide), if_neg (by decide),
      if_neg (fun hc => intDecimal_head_ne_eq n hc.2.2)]
    exact splitAssign_none_of_atom
      (fun x hx => ⟨((atomPiece_intDecimal n).2.1 x hx).1,
        ((atomPiece_intDecimal n).2.1 x hx).2.1,
        ((atomPiece_intDecimal n).2.1 x hx).2.2.1, intDecimal_no_colon n x hx⟩) _
  have hseg : parseRecordSegment (key.toList ++ ':' :: intDecimal n) = none := by
    unfold parseRecordSegment
    rw [hnone]
    rfl
  simp only [List.filterMap_cons, hseg, List.filterMap_nil]

/-! ## The claims -/

/-- Claim C1: `parse_value` decides its result by the first matching rule in
this fixed order: the reserved token `missing value` yields null; `true` and
`false` yield booleans; text parseable as an integer yields that integer
(integer kind, even when it is also float-parseable); text parseable as a
float yields that float; text wrapped in double quotes yields the string with
the surrounding quotes removed and no further unescaping; any other text is
returned unchanged as a string. -/
theorem parse_value_rule_order (s : String) :
    (s = "missing value" → parse_value s = ParsedValue.null) ∧
    (s = "true" → parse_value s = ParsedValue.bool true) ∧
    (s = "false" → parse_value s = ParsedValue.bool false) ∧
    (∀ n : Int, intLitVal? s.toList = some n → parse_value s = ParsedValue.int n) ∧
    (∀ num : Int, ∀ scale : Nat, intLitVal? s.toList = none →
      floatLitVal? s.toList = some (num, scale) →
      parse_value s = ParsedValue.float num scale) ∧
    (∀ mid : List Char, s.toList = dquote :: (mid ++ [dquote]) →
      parse_value s = ParsedValue.str (String.mk mid)) ∧
    (s ≠ "missing value" → s ≠ "true" → s ≠ "false" →
      intLitVal? s.toList = none → floatLitVal? s.toList = none →
      ¬(s.toList.head? = some dquote ∧ s.toList.getLast? = some dquote ∧
        2 ≤ s.toList.length) →
      parse_value s = ParsedValue.str s) := by
  refine ⟨?_, ?_, ?_, ?_, ?_, ?_, ?_⟩
  · rintro rfl
    decide
  · rintro rfl
    decide
  · rintro rfl
    decide
  · intro n hn
    exact parseValueChars_int hn
  · intro num scale hi hfl
    exact parseValueChars_float hi hfl
  · intro mid hmid
    show parseValueChars s.toList = _
    rw [hmid]
    exact parseValueChars_quoted mid
  · intro hm ht hf hi hfl hq
    show parseValueChars s.toList = _
    rw [parseValueChars_fallthrough (fun he => hm (string_toList_inj he))
      (fun he => ht (string_toList_inj he)) (fun he => hf (string_toList_inj he)) hi hfl,
      stripQuotedChars_default hq, mk_toList]

/-- Witness for C1: the integer rule beats the float rule on `42`, the float
rule fires on `3.14`, and unrecognized text falls through unchanged. -/
theorem parse_value_rule_order_witness :
    parse_value "42" = ParsedValue.int 42 ∧
    parse_value "3.14" = ParsedValue.float 314 2 ∧
    parse_value "something else" = ParsedValue.str "something else" := by
  refine ⟨(parse_value_rule_order "42").2.2.2.1 42 (by decide), ?_, ?_⟩
  · exact (parse_value_rule_order "3.14").2.2.2.2.1 314 2 (by decide) (by decide)
  · exact (parse_value_rule_order "something else").2.2.2.2.2.2 (by decide) (by decide)
      (by decide) (by decide) (by decide) (by decide)

/-- Counterexample to C2 as stated: the round trip fails for strings that the
escaper changes (the parser strips only the quotes, never unescaping), it
fails for every nonempty record (the formatter writes `key:value` but the
record parser only accepts `key:=value`), and it fails for string elements of
lists whose unquoted text re-parses as another scalar (the list parser strips
quotes before scalar coercion). -/
theorem format_parse_roundtrip_counterexample :
    parse_value (format_applescript_value (.scalar (.str "say \"hi\""))) =
      ParsedValue.str "say \\\"hi\\\"" ∧
    ParsedValue.str "say \\\"hi\\\"" ≠ ParsedValue.str "say \"hi\"" ∧
    parse_applescript_record
      (format_applescript_value (.record [("age", ParsedValue.int 30)])) = [] ∧
    (parse_applescript_list
      (format_applescript_value (.list [ParsedValue.str "42"]))).map parse_value =
      [ParsedValue.int 42] ∧
    [ParsedValue.int 42] ≠ [ParsedValue.str "42"] :=
  ⟨by decide, by decide, by decide, by decide, by decide⟩

/-- Claim C2 (amended): formatting then parsing reproduces the value exactly
for null, booleans, integers, floats with at least one fractional digit (the
shape Python's float formatter always emits), and strings containing no
double quote, backslash or single quote; a list of such scalars round trips
element-for-element provided its string elements are additionally inert under
scalar coercion (the list parser strips their quotes first).  Records are
excluded from the guarantee: because the formatter emits `key:value` while
the record parser splits only at `key:=value`, a one-field record with a
plain identifier key (no quote, brace, comma, colon or whitespace character)
and an integer value parses back to the empty mapping for every such key and
every integer, and the counterexample exhibits a concrete failing record. -/
theorem format_parse_roundtrip_amended :
    (∀ v : ParsedValue, scalarOK v = true →
      parse_value (format_applescript_value (.scalar v)) = v) ∧
    (∀ vs : List ParsedValue, (∀ v ∈ vs, listElemOK v = true) →
      (parse_applescript_list (format_applescript_value (.list vs))).map parse_value
        = vs) ∧
    (∀ (key : String) (n : Int), key.toList ≠ [] →
      (∀ c ∈ key.toList, c ≠ dquote ∧ c ≠ '{' ∧ c ≠ '}' ∧ c ≠ ',' ∧ c ≠ ':' ∧
        c.isWhitespace = false) →
      parse_applescript_record
        (format_applescript_value (.record [(key, ParsedValue.int n)])) = []) := by
  refine ⟨?_, list_roundtrip, record_int_field_parse_empty⟩
  intro v hv
  show parseValueChars (scalarChars v) = v
  exact parseValueChars_scalarChars hv

/-- Witness for C2 (amended): a clean string scalar and a mixed scalar list
round trip, and a plain-keyed integer record field is dropped entirely. -/
theorem format_parse_roundtrip_amended_witness :
    parse_value (format_applescript_value (.scalar (.str "Hello"))) =
      ParsedValue.str "Hello" ∧
    (parse_applescript_list (format_applescript_value
      (.list [ParsedValue.int 1, ParsedValue.str "two", ParsedValue.bool true,
        ParsedValue.null, ParsedValue.float 314 2]))).map parse_value =
      [ParsedValue.int 1, ParsedValue.str "two", ParsedValue.bool true,
        ParsedValue.null, ParsedValue.float 314 2] ∧
    parse_applescript_record
      (format_applescript_value (.record [("age", ParsedValue.int 30)])) = [] :=
  ⟨format_parse_roundtrip_amended.1 (.str "Hello") (by decide),
    format_parse_roundtrip_amended.2.1 _ (by decide),
    format_parse_roundtrip_amended.2.2 "age" 30 (by decide) (by decide)⟩

/-- Counterexample to C3 as stated: the escaper does not leave single quotes
unchanged — the repository's own test `test_escape_string` pins that a single
quote gains a preceding backslash. -/
theorem escape_string_counterexample :
    escape_string "test'with'quotes" = "test\\'with\\'quotes" ∧
    ("test\\'with\\'quotes" : String) ≠ "test'with'quotes" :=
  ⟨by decide, by decide⟩

/-- Claim C3 (amended): `escape_string` escapes exactly the embedded
double-quote, backslash and single-quote characters, each with one preceding
backslash, and leaves every other character unchanged; no other character
ever gains an escape.  Stated as: the three sequential replacement passes are
extensionally the single per-character rule `escapeSpec`. -/
theorem escape_string_amended (s : String) :
    (escape_string s).toList = escapeSpec s.toList :=
  escapeChars_eq_escapeSpec s.toList

/-- Counterexample to C4 as stated: split segments are not returned as raw
trimmed text — the repository's test `test_parse_applescript_list` pins that
one pair of surrounding double quotes is removed from each element. -/
theorem parse_list_counterexample :
    parse_applescript_list "\x7b\"a\", \"b\", \"c\"\x7d" = ["a", "b", "c"] ∧
    parse_applescript_list "\x7b\"a\", \"b\", \"c\"\x7d" ≠ ["\"a\"", "\"b\"", "\"c\""] :=
  ⟨by decide, by decide⟩

/-- Claim C4 (amended): `parse_applescript_list` strips at most one layer of
enclosing braces and splits the interior only at commas at brace-nesting
depth zero outside double quotes — the element count always equals one plus
the number of such commas, counted by an independent scanner — and each
element is trimmed of surrounding whitespace and then stripped of one pair of
surrounding double quotes.  Commas nested in braces or quotes never split, as
the concrete cases show. -/
theorem parse_list_amended :
    (∀ s : String, trimChars (stripBracesChars s.toList) ≠ [] →
      (parse_applescript_list s).length =
        countTopLevelCommas (stripBracesChars s.toList) 0 false + 1) ∧
    parse_applescript_list "\x7b1, \x7b2, 3\x7d, 4\x7d" = ["1", "\x7b2, 3\x7d", "4"] ∧
    parse_applescript_list "\x7b\"a, b\", 2\x7d" = ["a, b", "2"] ∧
    parse_applescript_list "\x7b\x7b1, 2\x7d\x7d" = ["\x7b1, 2\x7d"] ∧
    parse_applescript_list "  \x7b1, 2\x7d  " = ["1", "2"] := by
  refine ⟨?_, by decide, by decide, by decide, by decide⟩
  intro s hne
  rw [parse_applescript_list_eq, if_neg hne, List.length_map, splitTopLevel_length]

/-- Witness for C4 (amended): the element count of a two-element list equals
the top-level comma count plus one. -/
theorem parse_list_amended_witness :
    (parse_applescript_list "\x7b1, 2\x7d").length =
      countTopLevelCommas (stripBracesChars ("\x7b1, 2\x7d".toList)) 0 false + 1 :=
  parse_list_amended.1 "\x7b1, 2\x7d" (by decide)

/-- Claim C5: when a record value segment is itself a nested record (begins
with an opening brace and contains an inner `:=`), `parse_applescript_record`
keeps the raw unparsed text as the mapping value instead of recursing, while
sibling scalar fields in the same record are parsed normally: the nested
example maps `person` to the raw text (still containing `name:=`) and
`active` to the boolean true. -/
theorem parse_record_nested_raw :
    (∀ seg k v : List Char, splitAssign seg 0 false [] = some (k, v) →
      (trimChars v).head? = some '{' → containsAssign (trimChars v) = true →
      parseRecordSegment seg =
        some (String.mk (trimChars k), ParsedValue.str (String.mk (trimChars v)))) ∧
    parse_applescript_record
        "\x7bperson:=\x7bname:=\"Jane\", age:=25\x7d, active:=true\x7d" =
      [("person", ParsedValue.str "\x7bname:=\"Jane\", age:=25\x7d"),
        ("active", ParsedValue.bool true)] := by
  constructor
  · intro seg k v hsplit hhead hassign
    unfold parseRecordSegment
    rw [hsplit, Option.map_some']
    rw [if_pos ⟨hhead, hassign⟩]
  · decide

/-- Witness for C5: a concrete segment with a nested-record value is kept as
raw text. -/
theorem parse_record_nested_raw_witness :
    parseRecordSegment ("person:=\x7ba:=1\x7d".toList) =
      some ("person", ParsedValue.str "\x7ba:=1\x7d") := by
  have h := parse_record_nested_raw.1 ("person:=\x7ba:=1\x7d".toList)
    ("person".toList) ("\x7ba:=1\x7d".toList) (by decide) (by decide) (by decide)
  exact h.trans (by decide)

/-- Claim C6: the parsers are total over all input texts — in this embedding
every function is total by construction, and the content of the claim is the
degradation behaviour: text matching no scalar rule is returned unchanged as
a string, truncated or unbalanced input yields a best-effort container, a
record segment without the `:=` delimiter is skipped rather than raising, and
the empty string parses to the empty string value. -/
theorem parser_totality_best_effort :
    (∀ s : String, s ≠ "missing value" → s ≠ "true" → s ≠ "false" →
      intLitVal? s.toList = none → floatLitVal? s.toList = none →
      s.toList.head? ≠ some dquote → parse_value s = ParsedValue.str s) ∧
    parse_applescript_list "\x7b1, 2" = ["\x7b1, 2"] ∧
    parse_applescript_record "\x7bx:=1" = [] ∧
    parse_applescript_record "\x7bname:=\"John\", age\x7d" =
      [("name", ParsedValue.str "John")] ∧
    parse_value "" = ParsedValue.str "" := by
  refine ⟨?_, by decide, by decide, by decide, by decide⟩
  intro s hm ht hf hi hfl hq
  show parseValueChars s.toList = _
  rw [parseValueChars_fallthrough (fun he => hm (string_toList_inj he))
    (fun he => ht (string_toList_inj he)) (fun he => hf (string_toList_inj he)) hi hfl,
    stripQuotedChars_not_quote hq, mk_toList]

/-- Witness for C6: ordinary unrecognized text degrades to itself as a
string. -/
theorem parser_totality_best_effort_witness :
    parse_value "hello world" = ParsedValue.str "hello world" :=
  parser_totality_best_effort.1 "hello world" (by decide) (by decide) (by decide)
    (by decide) (by decide) (by decide)

/-- Claim C7: `parse_applescript_list` on the empty string and on the
two-character empty-braces token returns the empty sequence, and
`parse_applescript_record` on those inputs returns the empty mapping;
neither input is an error. -/
theorem parse_empty_containers :
    parse_applescript_list "" = [] ∧ parse_applescript_list "\x7b\x7d" = [] ∧
    parse_applescript_record "" = [] ∧ parse_applescript_record "\x7b\x7d" = [] :=
  ⟨by decide, by decide, by decide, by decide⟩

/-- Claim C8: `run_applescript_async` returns exactly the captured standard
output when the process exits with status zero, surfaces an executionFailed
error carrying the captured standard error exactly when the exit status is
non-zero, and on timeout expiry surfaces the distinct timeout error kind and
terminates the child process (the boolean component). -/
theorem run_applescript_async_contract (out err : String) (code : Int)
    (hcode : code ≠ 0) :
    run_applescript_async (.completed out err 0) = (.ok out, false) ∧
    run_applescript_async (.completed out err code) =
      (.error (.executionFailed err), false) ∧
    run_applescript_async .timedOut = (.error .timeout, true) := by
  refine ⟨rfl, ?_, rfl⟩
  simp only [run_applescript_async, if_neg hcode]

/-- Witness for C8: the mocked success case from the repository test (exit
zero, captured output) together with a failing exit and a timeout. -/
theorem run_applescript_async_contract_witness :
    run_applescript_async (.completed "ok" "boom" 0) = (.ok "ok", false) ∧
    run_applescript_async (.completed "ok" "boom" 1) =
      (.error (.executionFailed "boom"), false) ∧
    run_applescript_async .timedOut = (.error .timeout, true) :=
  run_applescript_async_contract "ok" "boom" 1 (by decide)

/-- Claim C9: the timing decorator `log_execution_time` never alters the
wrapped operation's result — the value returned (or the error propagated) by
the instrumented function is exactly the wrapped function's own result, for
every function and every argument. -/
theorem log_execution_time_transparent {α ε β : Type} (fname : String)
    (f : α → Except ε β) (a : α) :
    (log_execution_time fname f a).1 = f a := by
  cases hfa : f a <;> simp [log_execution_time, hfa]

/-- Claim C10: some exported tools fail on every invocation before any
external process is spawned, because the tool layer does not match the module
signatures: the `send_message` tool passes three positional arguments to
`MessageModule.send_message`, whose signature accepts two, so dispatch raises
a TypeError; and the `send_email` and `search_emails` tools invoke
`send_email`/`search_emails` on `MailModule`, which defines only
`send_mail`/`search_mails`, so dispatch raises an AttributeError. -/
theorem tool_dispatch_mismatch :
    send_message_tool_dispatch = CallOutcome.typeError ∧
    send_email_tool_dispatch = CallOutcome.attributeError ∧
    search_emails_tool_dispatch = CallOutcome.attributeError :=
  ⟨by decide, by decide, by decide⟩

/-- The embedding reproduces every concrete input/output pair pinned by the
repository's test suite `tests/test_applescript.py`. -/
theorem repository_test_vectors :
    parse_value "42" = ParsedValue.int 42 ∧
    parse_value "3.14" = ParsedValue.float 314 2 ∧
    parse_value "true" = ParsedValue.bool true ∧
    parse_value "false" = ParsedValue.bool false ∧
    parse_value "missing value" = ParsedValue.null ∧
    parse_value "\"Hello\"" = ParsedValue.str "Hello" ∧
    parse_value "something else" = ParsedValue.str "something else" ∧
    parse_applescript_list "" = [] ∧
    parse_applescript_list "\x7b\x7d" = [] ∧
    parse_applescript_list "\x7b1, 2, 3\x7d" = ["1", "2", "3"] ∧
    parse_applescript_list "\x7b\"a\", \"b\", \"c\"\x7d" = ["a", "b", "c"] ∧
    parse_applescript_list "\x7b1, \"two\", 3\x7d" = ["1", "two", "3"] ∧
    parse_applescript_record "\x7bname:=\"John\", age:=30\x7d" =
      [("name", ParsedValue.str "John"), ("age", ParsedValue.int 30)] ∧
    escape_string "test\"with\"quotes" = "test\\\"with\\\"quotes" ∧
    format_applescript_value (.scalar .null) = "missing value" ∧
    format_applescript_value (.scalar (.bool true)) = "true" ∧
    format_applescript_value (.scalar (.bool false)) = "false" ∧
    format_applescript_value (.scalar (.int 42)) = "42" ∧
    format_applescript_value (.scalar (.float 314 2)) = "3.14" ∧
    format_applescript_value (.scalar (.str "Hello")) = "\"Hello\"" ∧
    format_applescript_value (.list [.int 1, .int 2, .int 3]) = "\x7b1, 2, 3\x7d" ∧
    format_applescript_value (.record [("name", .str "John"), ("age", .int 30)]) =
      "\x7bname:\"John\", age:30\x7d" := by
  decide
